import Mathlib

/-!
Verification of the peer-to-peer networking core of `ctbc`
(src/src/communication.c), a Bitcoin-like node.

The development shallowly embeds the C source into Lean:

* byte buffers become `List Nat` (one `Nat` per octet, values 0..255);
* C `double` values (timestamps, latencies, candidate scores) become `ℚ`;
* machine integers become `Nat`/`Int` with explicit wrap where it matters;
* the libuv event loop is not modelled: each C callback becomes a pure
  function from its inputs and the touched state to the new state plus the
  list of emitted messages.

Functions whose bodies are in src/src/communication.c are translated from
that file (line references in the doc comments).  A few helpers that the C
file calls live in repository files that are not part of src/ (the message
codec in messages/, util.h helpers, parameters.h constants); each of those
is modelled from the spec and marked `Modelled from the spec:` in its doc
comment.
-/

namespace CTBC

/-! ## Stream framer: data and operations (communication.c lines 617-705) -/

/-- Modelled from the spec: the 4-byte network magic prefix
(`mainnet.magic`, Bitcoin mainnet magic bytes F9 BE B4 D9).  The framer
properties below hold for any 4-byte value; the concrete bytes make the
definitions executable. -/
def MAGIC : List Nat := [249, 190, 180, 217]

/-- Modelled from the spec: `starts_with_magic(p)` tests whether the four
bytes at `p` are the magic prefix. -/
def starts_with_magic (l : List Nat) : Bool := decide (l.take 4 = MAGIC)

/-- Little-endian 32-bit read, used for the `length` field of a header
(bytes beyond the end of the list read as 0; the framer only acts on the
value once a full header is buffered, see `extract_loop`). -/
def readU32LE (l : List Nat) : Nat :=
  l.getD 0 0 + 256 * l.getD 1 0 + 65536 * l.getD 2 0 + 16777216 * l.getD 3 0

/-- `sizeof(Header)`: magic u32, 12-byte command, length u32, 4-byte
checksum. -/
def HEADER_SIZE : Nat := 24

/-- A parsed wire header. -/
structure Header where
  magic : List Nat
  command : List Nat
  length : Nat
  checksum : List Nat
deriving DecidableEq

/-- Modelled from the spec: `parse_message_header` reads the 24-byte
header layout `{magic : u32 LE, command : 12 bytes, length : u32 LE,
checksum : 4 bytes}` from the front of the buffer. -/
def parse_message_header (buf : List Nat) : Header :=
  { magic := buf.take 4
    command := (buf.drop 4).take 12
    length := readU32LE (buf.drop 16)
    checksum := (buf.drop 20).take 4 }

/-- `checksum_match` (communication.c lines 617-623): parse the header,
compute the checksum of the `length`-byte payload that follows it and
compare with the header's checksum field.  `ck` stands for
`calculate_data_checksum`; its implementation (first four bytes of the
double SHA-256 of the payload, per the spec) lives outside src/, so it is
modelled from the spec as an arbitrary checksum function parameter: every
framer theorem below holds for each choice of `ck`. -/
def checksum_match (ck : List Nat → List Nat) (buf : List Nat) : Bool :=
  let h := parse_message_header buf
  decide (ck ((buf.drop HEADER_SIZE).take h.length) = h.checksum)

/-- `find_first_magic` (communication.c lines 625-634): scan offsets
`o = 0, 1, ...` while `o + sizeof(magic) < maxLength` and return the first
offset whose four bytes are the magic, or none (C returns -1). -/
def find_first_magic (data : List Nat) (maxLength : Nat) : Option Nat :=
  (List.range (maxLength - 4)).find? (fun o => starts_with_magic (data.drop o))

/-- `extract_message_from_stream_buffer` (communication.c lines 636-677).
The buffer is the list of live bytes (`buffer[0..bufferIndex)`).  Loop:
find the first magic; shift it to offset 0; parse the header (the source
does this even when fewer than 24 bytes are buffered - the resulting
`messageSize` is then at least 24, so the size check below still waits);
if `bufferIndex >= 24 + length`, verify the checksum and parse
(`parse_buffer_into_message`, whose per-command payload parsers live
outside src/ and are modelled from the spec by the predicate `pk`), hand
the frame to the protocol handler on success, shift the frame out, and
loop.  Returns the frames delivered to `handle_incoming_message` and the
final buffer contents. -/
def extract_loop (ck : List Nat → List Nat) (pk : List Nat → Bool) (buf : List Nat) :
    List (List Nat) × List Nat :=
  match find_first_magic buf buf.length with
  | none => ([], buf)
  | some o =>
    if hsz : HEADER_SIZE + (parse_message_header (buf.drop o)).length ≤ (buf.drop o).length then
      let messageSize := HEADER_SIZE + (parse_message_header (buf.drop o)).length
      let frame := (buf.drop o).take messageSize
      let delivered :=
        if checksum_match ck (buf.drop o) && pk frame then [frame] else []
      let rest := extract_loop ck pk ((buf.drop o).drop messageSize)
      (delivered ++ rest.1, rest.2)
    else
      ([], buf.drop o)
termination_by buf.length
decreasing_by
  simp only [List.length_drop, HEADER_SIZE] at hsz ⊢
  omega

/-- Count of `parse_message_header` invocations that the source's loop
performs on a buffer holding fewer than `HEADER_SIZE` bytes.  Mirrors the
control flow of `extract_message_from_stream_buffer`: the header is parsed
right after the magic is shifted to offset 0, before the
`bufferIndex >= messageSize` check. -/
def header_parses_below_24 (buf : List Nat) : Nat :=
  match find_first_magic buf buf.length with
  | none => 0
  | some o =>
    if hsz : HEADER_SIZE + (parse_message_header (buf.drop o)).length ≤ (buf.drop o).length then
      (if (buf.drop o).length < HEADER_SIZE then 1 else 0) +
        header_parses_below_24
          ((buf.drop o).drop (HEADER_SIZE + (parse_message_header (buf.drop o)).length))
    else
      (if (buf.drop o).length < HEADER_SIZE then 1 else 0)
termination_by buf.length
decreasing_by
  simp only [List.length_drop, HEADER_SIZE] at hsz ⊢
  omega

/-- `struct MessageCache` capacity: `Byte buffer[65536]` (peer.h). -/
def STREAM_BUFFER_CAPACITY : Nat := 65536

/-- `on_incoming_segment` (communication.c lines 679-697), data path: the
segment is appended to the live buffer (the source `memcpy`s it at
`buffer + bufferIndex` and adds `nread` to `bufferIndex`, with no
capacity check), then the extraction loop runs.  Returns the delivered
frames and the new buffer. -/
def on_incoming_segment (ck : List Nat → List Nat) (pk : List Nat → Bool)
    (cache seg : List Nat) : List (List Nat) × List Nat :=
  extract_loop ck pk (cache ++ seg)

/-- Feed a list of TCP segments to the framer in order, starting from the
given buffer; collect every frame delivered to the protocol handler. -/
def feed_segments (ck : List Nat → List Nat) (pk : List Nat → Bool)
    (cache : List Nat) : List (List Nat) → List (List Nat) × List Nat
  | [] => ([], cache)
  | seg :: rest =>
    let out := on_incoming_segment ck pk cache seg
    let next := feed_segments ck pk out.2 rest
    (out.1 ++ next.1, next.2)

/-- A byte sequence that is one valid encoded protocol message: it starts
with the magic, is at least a header long, its declared length matches the
actual payload length, its checksum field matches the payload checksum,
and the codec parses it (`pk`). -/
def ValidFrame (ck : List Nat → List Nat) (pk : List Nat → Bool) (f : List Nat) : Prop :=
  f.take 4 = MAGIC ∧ HEADER_SIZE ≤ f.length ∧
    readU32LE (f.drop 16) = f.length - HEADER_SIZE ∧
    (f.drop 20).take 4 = ck (f.drop HEADER_SIZE) ∧ pk f = true

/-- A structurally complete frame (magic, full header, declared length
matching the actual payload length); its checksum may be wrong. -/
def CompleteFrame (f : List Nat) : Prop :=
  f.take 4 = MAGIC ∧ HEADER_SIZE ≤ f.length ∧
    readU32LE (f.drop 16) = f.length - HEADER_SIZE

/-- A buffer state from which the framer must wait: empty, or a proper
front part of a single valid frame. -/
def FrameResidue (ck : List Nat → List Nat) (pk : List Nat → Bool) (p : List Nat) : Prop :=
  p = [] ∨ ∃ f n, ValidFrame ck pk f ∧ n < f.length ∧ p = f.take n

instance ValidFrame.instDecidable (ck : List Nat → List Nat) (pk : List Nat → Bool)
    (f : List Nat) : Decidable (ValidFrame ck pk f) := by
  unfold ValidFrame
  infer_instance

instance CompleteFrame.instDecidable (f : List Nat) : Decidable (CompleteFrame f) := by
  unfold CompleteFrame
  infer_instance

/-! Concrete framer inputs used by witnesses and counterexamples. -/

/-- A trivial checksum-function instance for concrete runs. -/
def ckZero : List Nat → List Nat := fun _ => [0, 0, 0, 0]

/-- A codec-parse instance that accepts every frame. -/
def pkTrue : List Nat → Bool := fun _ => true

/-- Little-endian encoding of a u32. -/
def le32 (n : Nat) : List Nat :=
  [n % 256, n / 256 % 256, n / 65536 % 256, n / 16777216 % 256]

/-- The 12-byte command field for verack. -/
def cmdVerack : List Nat := [118, 101, 114, 97, 99, 107, 0, 0, 0, 0, 0, 0]

/-- The 12-byte command field for ping. -/
def cmdPing : List Nat := [112, 105, 110, 103, 0, 0, 0, 0, 0, 0, 0, 0]

/-- The 12-byte command field for block. -/
def cmdBlock : List Nat := [98, 108, 111, 99, 107, 0, 0, 0, 0, 0, 0, 0]

/-- A 24-byte valid empty-payload frame (matches `ckZero`). -/
def frameA : List Nat := MAGIC ++ cmdVerack ++ le32 0 ++ [0, 0, 0, 0]

/-- A 32-byte valid frame with an 8-byte payload (matches `ckZero`). -/
def frameC : List Nat := MAGIC ++ cmdPing ++ le32 8 ++ [0, 0, 0, 0] ++ [9, 8, 7, 6, 5, 4, 3, 2]

/-- A complete 24-byte frame whose checksum field does not match `ckZero`. -/
def frameB : List Nat := MAGIC ++ cmdVerack ++ le32 0 ++ [1, 0, 0, 0]

/-- A header declaring a payload larger than the stream buffer can ever
hold: `length = 65529 > 65536 - 24`. -/
def oversizeHdr : List Nat := MAGIC ++ cmdBlock ++ le32 65529 ++ [0, 0, 0, 0]

/-- A 40000-byte TCP segment of payload bytes. -/
def segOnes : List Nat := List.replicate 40000 1

/-! ## Candidate registry and selection (communication.c lines 844-897) -/

/-- `PEER_CANDIDATE_STATUS_*`. -/
inductive CandidateStatus where
  | active
  | disabled
deriving DecidableEq

/-- `PeerCandidate`: last-seen timestamp (uint32 seconds), advertised
services, status, measured average latency (ms, 0 if untested), and
whether the candidate is currently bound to a peer slot (`is_peer`, a
util helper outside src/: modelled from the spec as a field). -/
structure PeerCandidate where
  timestamp : Nat
  services : Nat
  status : CandidateStatus
  averageLatency : ℚ
  isPeer : Bool
deriving DecidableEq

/-- `rate_candidate` (communication.c lines 844-877).  `now` is the
wall-clock in ms, `tol` is `config.tolerances.latency` (2000 ms in
config.c), `rand01` is the `random_betwen_0_1()` sample of this call.
Unit macros (`SECOND_TO_MILLISECOND`, `DAY_TO_MILLISECOND`) are modelled
from the spec as 1000 ms/s and 86400000 ms/day. -/
def rate_candidate (now tol rand01 : ℚ) (c : PeerCandidate) : ℚ :=
  let statusScore : ℚ := if c.status = CandidateStatus.disabled then -10 else 0
  let deltaT : ℚ := now - 1000 * (c.timestamp : ℚ)
  let timestampScore : ℚ :=
    if deltaT > 86400000 * 7 then 8 / 10
    else if deltaT > 86400000 * 1 then 1
    else 5 / 10
  let latencyScore : ℚ := if c.averageLatency ≠ 0 then tol / c.averageLatency else 1
  let shuffleScore : ℚ := rand01 * 2
  statusScore + timestampScore + latencyScore + shuffleScore

/-- The scan loop of `pick_best_nonpeer_candidate`: walk the indexed
candidates, skip those bound to a slot, and keep the strictly best score
seen so far.  `rand` gives the jitter sample used when candidate `i` is
rated (the C draws a fresh sample per call; the model fixes one sample per
candidate, the same in the initialisation and in the loop). -/
def pick_go (now tol : ℚ) (rand : Nat → ℚ) :
    List (Nat × PeerCandidate) → Nat × ℚ → Nat × ℚ
  | [], best => best
  | (i, c) :: rest, best =>
    if c.isPeer then pick_go now tol rand rest best
    else
      if rate_candidate now tol (rand i) c > best.2 then
        pick_go now tol rand rest (i, rate_candidate now tol (rand i) c)
      else pick_go now tol rand rest best

/-- `pick_best_nonpeer_candidate` (communication.c lines 879-897): the
best cursor is initialised to candidate 0 and its score - without
checking whether candidate 0 is bound to a peer slot - then the loop
scans all candidates.  Returns (chosen index, final best score). -/
def pick_best_nonpeer_candidate (now tol : ℚ) (rand : Nat → ℚ)
    (cs : List PeerCandidate) : Nat × ℚ :=
  match cs with
  | [] => (0, 0)
  | c0 :: _ => pick_go now tol rand cs.enum (0, rate_candidate now tol (rand 0) c0)

/-- A bound (is_peer) active candidate with a very good measured latency. -/
def boundCand : PeerCandidate :=
  { timestamp := 0, services := 0, status := CandidateStatus.active,
    averageLatency := 1, isPeer := true }

/-- An unbound active candidate with no measured latency. -/
def freeCand : PeerCandidate :=
  { timestamp := 0, services := 0, status := CandidateStatus.active,
    averageLatency := 0, isPeer := false }

/-- An active candidate with a 100 ms measured average latency. -/
def candW : PeerCandidate :=
  { timestamp := 0, services := 0, status := CandidateStatus.active,
    averageLatency := 100, isPeer := false }

/-! ## Peer state and the protocol handler (communication.c lines 511-615) -/

/-- Received wire messages, by command, carrying the payload fields the
handler reads.  `version` carries `version`, `start_height` (both signed
in the payload) and `services`; `other` stands for the commands whose
handling does not touch the state the claims are about
(addr/headers/inv/reject). -/
inductive Msg where
  | version (v : Int) (startHeight : Int) (services : Nat)
  | verack
  | ping (nonce : Nat)
  | pong (nonce : Nat)
  | block
  | other
deriving DecidableEq

/-- Messages and control actions the handler emits. -/
inductive Action where
  | handshakeSuccess
  | replacePeer
  | sendGetaddr
  | sendPing (nonce : Nat)
  | sendVerack
  | sendPong (nonce : Nat)
deriving DecidableEq

/-- `peer.networking.ping`: nonce of the outstanding ping, `pingSent`
and `pongReceived` wall-clock stamps (doubles; 0 = unset). -/
structure PingState where
  nonce : Nat
  pingSent : ℚ
  pongReceived : ℚ
deriving DecidableEq

/-- The candidate record a peer is bound to (`ptrPeer->candidacy`):
the fields the handler writes through the pointer. -/
structure Candidacy where
  timestamp : Nat
  services : Nat
  averageLatency : ℚ
deriving DecidableEq

/-- The peer-slot state touched by the handler: handshake flags
(`handshake.acceptThem` / `acceptUs`, peer.h), reported chain height,
ping state, the latency ring (modelled from the spec as the list of
recorded samples, most recent first), the currently requested block hash,
and the bound candidate. -/
structure Peer where
  acceptThem : Bool
  acceptUs : Bool
  chain_height : Nat
  ping : PingState
  latencySamples : List ℚ
  requesting : List Nat
  candidacy : Candidacy
deriving DecidableEq

/-- Modelled from the spec: `peer_hand_shaken` - both handshake flags set
means the handshake is complete. -/
def peer_hand_shaken (p : Peer) : Bool := p.acceptThem && p.acceptUs

/-- The globals and config constants the handler reads. -/
structure Env where
  minimalPeerVersion : Int
  ibdMode : Bool
  maxFullBlockHeight : Nat
  peerCandidateCount : Nat
  getaddrThreshold : Nat
  latencyRingSize : Nat
deriving DecidableEq

/-- Modelled from the spec: the latency ring is fully tested once it has
been filled with `latencyRingSize` samples. -/
def is_latency_fully_tested (env : Env) (p : Peer) : Bool :=
  decide (env.latencyRingSize ≤ p.latencySamples.length)

/-- Modelled from the spec: the average of the ring, i.e. of the most
recent `latencyRingSize` samples. -/
def average_peer_latency (env : Env) (p : Peer) : ℚ :=
  let ring := p.latencySamples.take env.latencyRingSize
  ring.sum / (ring.length : ℚ)

/-- `ping_peer` (communication.c lines 72-85): if a ping is outstanding
and unanswered, record the overdue span as a latency sample; draw a fresh
nonce (`freshNonce` stands for `random_uint64()`), clear `pongReceived`,
and send the ping.  `pingSent` is deliberately not set here - the source
sets it in the write-completion callback `on_message_attempted`. -/
def ping_peer (now : ℚ) (freshNonce : Nat) (p : Peer) : Peer × List Action :=
  let p1 :=
    if p.ping.pingSent ≠ 0 ∧ p.ping.pongReceived = 0 then
      { p with latencySamples := (now - p.ping.pingSent) :: p.latencySamples }
    else p
  let p2 := { p1 with ping := { nonce := freshNonce, pingSent := p1.ping.pingSent,
                                pongReceived := 0 } }
  (p2, [Action.sendPing freshNonce])

/-- `on_handshake_success` (communication.c lines 511-525): in IBD mode a
peer behind our full-block height is replaced at once; otherwise send
`getaddr` when the candidate count is below the threshold, then the first
ping.  The `Action.handshakeSuccess` marker records that this function
ran. -/
def on_handshake_success (env : Env) (now : ℚ) (freshNonce : Nat) (p : Peer) :
    Peer × List Action :=
  if env.ibdMode ∧ p.chain_height < env.maxFullBlockHeight then
    (p, [Action.handshakeSuccess, Action.replacePeer])
  else
    let getaddrActs := if env.peerCandidateCount < env.getaddrThreshold
                       then [Action.sendGetaddr] else []
    let pinged := ping_peer now freshNonce p
    (pinged.1, Action.handshakeSuccess :: (getaddrActs ++ pinged.2))

/-- C's `round()` (half away from zero), via the floor function. -/
def c_round (x : ℚ) : ℤ :=
  if 0 ≤ x then ⌊x + 1 / 2⌋ else -⌊(-x) + 1 / 2⌋

/-- Conversion of a signed value to uint32, as the C assignments do. -/
def u32ofInt (x : Int) : Nat := (x % 4294967296).toNat

/-- `handle_incoming_message` (communication.c lines 531-615), restricted
to the state the claims are about.  Every message first refreshes the
bound candidate's timestamp to `round(now/1000)` (line 537).  `version`:
set `acceptThem` only when the payload version reaches
`mainnet.minimalPeerVersion`, record `chain_height` and the candidate's
services unconditionally, and run `on_handshake_success` when both flags
are now set.  `verack`: set `acceptUs`, echo a verack, and likewise.
`ping`: echo `pong` with the same nonce.  `pong`: on a nonce match record
exactly one latency sample and stamp `pongReceived`; otherwise only log.
`block`: the payload goes to the chain (external) and `requesting` is
cleared. -/
def handle_incoming_message (env : Env) (now : ℚ) (freshNonce : Nat)
    (p : Peer) (m : Msg) : Peer × List Action :=
  let ts : Nat := (c_round (now / 1000) % 4294967296).toNat
  let p0 := { p with candidacy := { p.candidacy with timestamp := ts } }
  match m with
  | Msg.version v h s =>
    let p1 := if v ≥ env.minimalPeerVersion then { p0 with acceptThem := true } else p0
    let p2 := { p1 with chain_height := u32ofInt h,
                        candidacy := { p1.candidacy with services := s } }
    if peer_hand_shaken p2 then on_handshake_success env now freshNonce p2 else (p2, [])
  | Msg.verack =>
    let p1 := { p0 with acceptUs := true }
    if peer_hand_shaken p1 then
      let s := on_handshake_success env now freshNonce p1
      (s.1, Action.sendVerack :: s.2)
    else (p1, [Action.sendVerack])
  | Msg.ping n => (p0, [Action.sendPong n])
  | Msg.pong n =>
    if n = p0.ping.nonce then
      let p1 := { p0 with ping := { p0.ping with pongReceived := now },
                          latencySamples := (now - p0.ping.pingSent) :: p0.latencySamples }
      if is_latency_fully_tested env p1 then
        ({ p1 with candidacy := { p1.candidacy with
             averageLatency := average_peer_latency env p1 } }, [])
      else (p1, [])
    else (p0, [])
  | Msg.block => ({ p0 with requesting := List.replicate 32 0 }, [])
  | Msg.other => (p0, [])

/-- One received message together with the ambient wall clock and the
nonce `random_uint64()` would draw if a ping is sent while handling it. -/
structure Inp where
  now : ℚ
  freshNonce : Nat
  msg : Msg
deriving DecidableEq

/-- Process a list of received messages in TCP-delivery order; collect
each step's emitted actions. -/
def run_messages (env : Env) (p : Peer) : List Inp → List (List Action) × Peer
  | [] => ([], p)
  | i :: rest =>
    let s := handle_incoming_message env i.now i.freshNonce p i.msg
    let r := run_messages env s.1 rest
    (s.2 :: r.1, r.2)

/-- A version message whose payload version reaches the minimum. -/
def acceptedVersion (env : Env) : Msg → Bool
  | Msg.version v _ _ => decide (v ≥ env.minimalPeerVersion)
  | _ => false

/-- Is this message a verack? -/
def isVerack : Msg → Bool
  | Msg.verack => true
  | _ => false

/-- Is this message a version message (any payload version)? -/
def isVersionMsg : Msg → Bool
  | Msg.version _ _ _ => true
  | _ => false

/-- Both a version message meeting the minimum and a verack occur in the
list. -/
def handshakeCompleted (env : Env) (msgs : List Msg) : Bool :=
  msgs.any (acceptedVersion env) && msgs.any isVerack

/-- The initial peer state of a fresh slot (`reset_peer`): no handshake
flags, empty ping state, no samples, idle. -/
def freshPeer : Peer :=
  { acceptThem := false, acceptUs := false, chain_height := 0,
    ping := { nonce := 0, pingSent := 0, pongReceived := 0 },
    latencySamples := [], requesting := List.replicate 32 0,
    candidacy := { timestamp := 0, services := 0, averageLatency := 0 } }

/-! ## Data exchange (communication.c lines 145-182 and 317-327) -/

/-- Modelled from the spec: `is_hash_empty` - the all-zero hash means the
peer is not awaiting any block. -/
def is_hash_empty (h : List Nat) : Bool := h.all (fun b => b = 0)

/-- `is_peer_idle` (communication.c lines 145-147). -/
def is_peer_idle (p : Peer) : Bool := peer_hand_shaken p && is_hash_empty p.requesting

/-- `count_idle_peers` (communication.c lines 149-158). -/
def count_idle_peers (ps : List Peer) : Nat := (ps.filter is_peer_idle).length

/-- Messages sent by a data-exchange tick, tagged with the index of the
peer they go to.  A `getdata` with `none` models the source calling
`send_getdata_for_block(socket, NULL)`: the callee `memcpy`s 32 bytes
from the null pointer into the inventory vector (undefined behavior in
C) and sends the message. -/
inductive XAct where
  | getheaders (peerIndex : Nat)
  | getdata (peerIndex : Nat) (hash : Option (List Nat))
deriving DecidableEq

/-- The peer-walk of `exchange_data_with_peers` (communication.c lines
166-180): skip peers that are not handshaken; send `getheaders` when the
peer reports a higher chain than our tip; assign the next unassigned
missing-block hash when the peer is idle and one remains; then call
`send_getdata_for_block` unconditionally with the assigned hash or NULL.
Nothing in src/ ever writes the assigned hash into `peer.requesting`. -/
def exchange_go (localTip : Nat) (blocks : List (List Nat)) :
    List (Nat × Peer) → Nat → List XAct
  | [], _ => []
  | (i, p) :: rest, blockIndex =>
    if peer_hand_shaken p then
      let gh := if localTip < p.chain_height then [XAct.getheaders i] else []
      if is_peer_idle p ∧ blockIndex < blocks.length then
        gh ++ [XAct.getdata i (some (blocks.getD blockIndex []))] ++
          exchange_go localTip blocks rest (blockIndex + 1)
      else
        gh ++ [XAct.getdata i none] ++ exchange_go localTip blocks rest blockIndex
    else
      exchange_go localTip blocks rest blockIndex

/-- `exchange_data_with_peers` (communication.c lines 160-182): count the
idle peers, ask the chain for up to that many missing-block hashes
(`find_missing_blocks` is an external collaborator; `missing` is the list
it returns, truncated to the idle count as the C buffer size bounds it),
then walk the peers. -/
def exchange_data_with_peers (localTip : Nat) (ps : List Peer)
    (missing : List (List Nat)) : List XAct :=
  exchange_go localTip (missing.take (count_idle_peers ps)) ps.enum 0

/-- A handshaken peer that is awaiting a block (`requesting` nonzero),
hence not idle. -/
def busyPeer : Peer :=
  { freshPeer with acceptThem := true, acceptUs := true, chain_height := 50,
                   requesting := List.replicate 32 1 }

/-- A concrete environment for witnesses: protocol minimum 70015, IBD
off, candidate count above the getaddr threshold, ring of 8 samples. -/
def envW : Env :=
  { minimalPeerVersion := 70015, ibdMode := false, maxFullBlockHeight := 0,
    peerCandidateCount := 1200, getaddrThreshold := 1000, latencyRingSize := 8 }

/-- A peer with one outstanding ping (nonce 42, sent at t = 5 ms). -/
def pongPeer : Peer :=
  { freshPeer with ping := { nonce := 42, pingSent := 5, pongReceived := 0 } }

/-- Default element for indexing into input lists. -/
def defaultInp : Inp := { now := 0, freshNonce := 0, msg := Msg.other }

/-- A handshake followed by a duplicate verack. -/
def dupInps : List Inp :=
  [{ now := 0, freshNonce := 1, msg := Msg.version 70015 0 0 },
   { now := 0, freshNonce := 2, msg := Msg.verack },
   { now := 0, freshNonce := 3, msg := Msg.verack }]

/-- A clean handshake: one accepted version then one verack. -/
def okInps : List Inp :=
  [{ now := 0, freshNonce := 1, msg := Msg.version 70015 600000 1 },
   { now := 0, freshNonce := 2, msg := Msg.verack }]

/-! ## Admin socket (communication.c lines 775-791) -/

/-- The admin KILL sentinel bytes (the `INSTRUCTION_KILL` macro lives
outside src/; modelled from the spec: the literal `KILL`). -/
def INSTRUCTION_KILL : List Nat := [75, 73, 76, 76]

/-- `on_incoming_segment_to_api` (communication.c lines 775-791), decision
only: the source runs `memcmp(buf->base, INSTRUCTION_KILL,
strlen(INSTRUCTION_KILL))` - it compares the first 4 bytes of the
allocated read buffer and never consults `nread`.  `bufMemory` is the
buffer contents: the `nread` delivered bytes followed by whatever the
allocation already held.  Returns whether `terminate_main_loop` is
invoked. -/
def api_segment_kills (nread : Nat) (bufMemory : List Nat) : Bool :=
  decide (bufMemory.take 4 = INSTRUCTION_KILL)

/-! ## List index helpers -/

theorem getD_append_left (l₁ l₂ : List Nat) (i d : Nat) (h : i < l₁.length) :
    (l₁ ++ l₂).getD i d = l₁.getD i d := by
  induction l₁ generalizing i with
  | nil => simp at h
  | cons a t ih =>
    cases i with
    | zero => rfl
    | succ j =>
      simp only [List.cons_append, List.getD_cons_succ]
      exact ih j (by simpa using h)

theorem getD_take (l : List Nat) (k i d : Nat) (h : i < k) :
    (l.take k).getD i d = l.getD i d := by
  induction l generalizing i k with
  | nil => simp
  | cons a t ih =>
    cases k with
    | zero => omega
    | succ k =>
      cases i with
      | zero => rfl
      | succ j =>
        simp only [List.take_succ_cons, List.getD_cons_succ]
        exact ih k j (by omega)

theorem getD_drop (l : List Nat) (n i d : Nat) :
    (l.drop n).getD i d = l.getD (n + i) d := by
  induction l generalizing n with
  | nil => simp
  | cons a t ih =>
    cases n with
    | zero => simp
    | succ m =>
      simp only [List.drop_succ_cons]
      rw [ih m, Nat.succ_add]
      rfl

theorem readU32LE_append (a b : List Nat) (h : 4 ≤ a.length) :
    readU32LE (a ++ b) = readU32LE a := by
  unfold readU32LE
  rw [getD_append_left _ _ 0 _ (by omega), getD_append_left _ _ 1 _ (by omega),
      getD_append_left _ _ 2 _ (by omega), getD_append_left _ _ 3 _ (by omega)]

theorem readU32LE_take (l : List Nat) (k : Nat) (h : 4 ≤ k) :
    readU32LE (l.take k) = readU32LE l := by
  unfold readU32LE
  rw [getD_take _ _ 0 _ (by omega), getD_take _ _ 1 _ (by omega),
      getD_take _ _ 2 _ (by omega), getD_take _ _ 3 _ (by omega)]

/-! ## Behaviour of find_first_magic -/

theorem find_first_magic_none_short (data : List Nat) (maxLength : Nat) (h : maxLength ≤ 4) :
    find_first_magic data maxLength = none := by
  unfold find_first_magic
  have h0 : maxLength - 4 = 0 := by omega
  rw [h0]
  rfl

theorem find_first_magic_at_zero (data : List Nat) (maxLength : Nat) (h : 4 < maxLength)
    (hm : data.take 4 = MAGIC) : find_first_magic data maxLength = some 0 := by
  unfold find_first_magic
  have h1 : maxLength - 4 = (maxLength - 5) + 1 := by omega
  rw [h1, List.range_succ_eq_map]
  apply List.find?_cons_of_pos
  simp [starts_with_magic, hm]

/-! ## Single steps of the extraction loop -/

theorem extract_loop_no_magic (ck : List Nat → List Nat) (pk : List Nat → Bool)
    (buf : List Nat) (h : find_first_magic buf buf.length = none) :
    extract_loop ck pk buf = ([], buf) := by
  unfold extract_loop
  rw [h]

theorem extract_loop_wait (ck : List Nat → List Nat) (pk : List Nat → Bool)
    (buf : List Nat) (o : Nat)
    (hf : find_first_magic buf buf.length = some o)
    (hlt : (buf.drop o).length < HEADER_SIZE + (parse_message_header (buf.drop o)).length) :
    extract_loop ck pk buf = ([], buf.drop o) := by
  unfold extract_loop
  simp only [hf]
  rw [dif_neg (by omega)]

theorem extract_loop_step (ck : List Nat → List Nat) (pk : List Nat → Bool)
    (buf : List Nat) (o : Nat)
    (hf : find_first_magic buf buf.length = some o)
    (hsz : HEADER_SIZE + (parse_message_header (buf.drop o)).length ≤ (buf.drop o).length) :
    extract_loop ck pk buf =
      ((if checksum_match ck (buf.drop o) &&
            pk ((buf.drop o).take (HEADER_SIZE + (parse_message_header (buf.drop o)).length))
        then [(buf.drop o).take (HEADER_SIZE + (parse_message_header (buf.drop o)).length)]
        else []) ++
        (extract_loop ck pk
          ((buf.drop o).drop (HEADER_SIZE + (parse_message_header (buf.drop o)).length))).1,
       (extract_loop ck pk
          ((buf.drop o).drop (HEADER_SIZE + (parse_message_header (buf.drop o)).length))).2) := by
  conv_lhs => unfold extract_loop
  simp only [hf]
  rw [dif_pos hsz]

theorem take_take_le (l : List Nat) (m n : Nat) (h : m ≤ n) :
    (l.take n).take m = l.take m := by
  induction l generalizing m n with
  | nil => simp
  | cons a t ih =>
    cases n with
    | zero =>
      have hm : m = 0 := by omega
      subst hm
      simp
    | succ k =>
      cases m with
      | zero => simp
      | succ j =>
        simp only [List.take_succ_cons]
        rw [ih j k (by omega)]

theorem readU32LE_drop16_take (f : List Nat) (n : Nat) (h : 20 ≤ n) :
    readU32LE ((f.take n).drop 16) = readU32LE (f.drop 16) := by
  unfold readU32LE
  simp only [getD_drop]
  rw [getD_take f n 16 0 (by omega), getD_take f n 17 0 (by omega),
      getD_take f n 18 0 (by omega), getD_take f n 19 0 (by omega)]

theorem checksum_match_append (ck : List Nat → List Nat) (m r : List Nat)
    (hlen : HEADER_SIZE ≤ m.length)
    (hdecl : readU32LE (m.drop 16) = m.length - HEADER_SIZE) :
    checksum_match ck (m ++ r) =
      decide (ck (m.drop HEADER_SIZE) = (m.drop 20).take 4) := by
  have hlen24 : 24 ≤ m.length := by simpa [HEADER_SIZE] using hlen
  have h16 : (m ++ r).drop 16 = m.drop 16 ++ r :=
    List.drop_append_of_le_length (by omega)
  have h20 : (m ++ r).drop 20 = m.drop 20 ++ r :=
    List.drop_append_of_le_length (by omega)
  have h24 : (m ++ r).drop HEADER_SIZE = m.drop HEADER_SIZE ++ r :=
    List.drop_append_of_le_length (by simp only [HEADER_SIZE]; omega)
  have hread : readU32LE ((m ++ r).drop 16) = m.length - HEADER_SIZE := by
    rw [h16, readU32LE_append _ _ (by rw [List.length_drop]; omega), hdecl]
  have hpay : ((m ++ r).drop HEADER_SIZE).take (m.length - HEADER_SIZE) = m.drop HEADER_SIZE := by
    rw [h24, List.take_append_of_le_length (by rw [List.length_drop])]
    have hx : m.length - HEADER_SIZE = (m.drop HEADER_SIZE).length := by
      rw [List.length_drop]
    rw [hx, List.take_length]
  have hcksum : ((m ++ r).drop 20).take 4 = (m.drop 20).take 4 := by
    rw [h20, List.take_append_of_le_length (by rw [List.length_drop]; omega)]
  unfold checksum_match parse_message_header
  simp only [hread, hpay, hcksum]

theorem extract_loop_cons (ck : List Nat → List Nat) (pk : List Nat → Bool)
    (m r : List Nat) (hm : CompleteFrame m) :
    extract_loop ck pk (m ++ r) =
      ((if decide (ck (m.drop HEADER_SIZE) = (m.drop 20).take 4) && pk m then [m] else []) ++
         (extract_loop ck pk r).1,
       (extract_loop ck pk r).2) := by
  obtain ⟨hmag, hlen, hdecl⟩ := hm
  have hlen24 : 24 ≤ m.length := by simpa [HEADER_SIZE] using hlen
  have hfind : find_first_magic (m ++ r) (m ++ r).length = some 0 := by
    apply find_first_magic_at_zero
    · rw [List.length_append]; omega
    · rw [List.take_append_of_le_length (by omega)]; exact hmag
  have hdrop0 : (m ++ r).drop 0 = m ++ r := List.drop_zero _
  have h16 : (m ++ r).drop 16 = m.drop 16 ++ r :=
    List.drop_append_of_le_length (by omega)
  have hread : readU32LE ((m ++ r).drop 16) = m.length - HEADER_SIZE := by
    rw [h16, readU32LE_append _ _ (by rw [List.length_drop]; omega), hdecl]
  have hmsize : HEADER_SIZE + (parse_message_header ((m ++ r).drop 0)).length = m.length := by
    rw [hdrop0]
    show HEADER_SIZE + readU32LE ((m ++ r).drop 16) = m.length
    rw [hread]
    simp only [HEADER_SIZE] at *
    omega
  have hsz : HEADER_SIZE + (parse_message_header ((m ++ r).drop 0)).length ≤
      ((m ++ r).drop 0).length := by
    rw [hmsize, hdrop0, List.length_append]
    omega
  rw [extract_loop_step ck pk (m ++ r) 0 hfind hsz]
  rw [hdrop0] at hmsize ⊢
  rw [hmsize, List.take_left, List.drop_left, checksum_match_append ck m r hlen hdecl]

theorem extract_loop_residue (ck : List Nat → List Nat) (pk : List Nat → Bool)
    (p : List Nat) (hp : FrameResidue ck pk p) :
    extract_loop ck pk p = ([], p) := by
  rcases hp with hnil | ⟨f, n, hf, hn, hpre⟩
  · subst hnil
    exact extract_loop_no_magic ck pk [] (find_first_magic_none_short _ _ (by simp))
  · obtain ⟨hmag, hlen, hdecl, -, -⟩ := hf
    have hlen24 : 24 ≤ f.length := by simpa [HEADER_SIZE] using hlen
    subst hpre
    have hplen : (f.take n).length = n := by rw [List.length_take]; omega
    by_cases hsmall : (f.take n).length ≤ 4
    · exact extract_loop_no_magic ck pk _ (find_first_magic_none_short _ _ hsmall)
    · push_neg at hsmall
      have hfind : find_first_magic (f.take n) (f.take n).length = some 0 := by
        apply find_first_magic_at_zero _ _ hsmall
        rw [take_take_le f 4 n (by omega)]
        exact hmag
      have hwait : ((f.take n).drop 0).length <
          HEADER_SIZE + (parse_message_header ((f.take n).drop 0)).length := by
        rw [List.drop_zero]
        show (f.take n).length < HEADER_SIZE + readU32LE ((f.take n).drop 16)
        by_cases h20 : 20 ≤ n
        · rw [hplen, readU32LE_drop16_take f n h20, hdecl]
          simp only [HEADER_SIZE] at *
          omega
        · rw [hplen]
          simp only [HEADER_SIZE]
          omega
      rw [extract_loop_wait ck pk _ 0 hfind hwait, List.drop_zero]

theorem extract_loop_frames (ck : List Nat → List Nat) (pk : List Nat → Bool)
    (ms : List (List Nat)) (p : List Nat)
    (hms : ∀ m ∈ ms, ValidFrame ck pk m) (hp : FrameResidue ck pk p) :
    extract_loop ck pk (ms.flatten ++ p) = (ms, p) := by
  induction ms with
  | nil => simpa using extract_loop_residue ck pk p hp
  | cons m t ih =>
    obtain ⟨hmag, hlen, hdecl, hcksum, hpk⟩ := hms m (by simp)
    rw [List.flatten_cons, List.append_assoc,
        extract_loop_cons ck pk m _ ⟨hmag, hlen, hdecl⟩,
        ih (fun x hx => hms x (by simp [hx]))]
    have hd : ck (m.drop HEADER_SIZE) = (m.drop 20).take 4 := hcksum.symm
    simp [hd, hpk]

theorem residue_join_nil (ck : List Nat → List Nat) (pk : List Nat → Bool)
    (ms : List (List Nat)) (p : List Nat)
    (hms : ∀ m ∈ ms, ValidFrame ck pk m) (hp : FrameResidue ck pk p)
    (h : p = ms.flatten) : ms = [] ∧ p = [] := by
  cases ms with
  | nil => exact ⟨rfl, by simpa using h⟩
  | cons m t =>
    exfalso
    obtain ⟨hmag, hlen, hdecl, -, -⟩ := hms m (by simp)
    have hlen24 : 24 ≤ m.length := by simpa [HEADER_SIZE] using hlen
    rcases hp with hnil | ⟨f, n, hf, hn, hpre⟩
    · subst hnil
      have hl := congrArg List.length h
      rw [List.flatten_cons, List.length_append] at hl
      simp at hl
      omega
    · obtain ⟨hfmag, hflen, hfdecl, -, -⟩ := hf
      have hflen24 : 24 ≤ f.length := by simpa [HEADER_SIZE] using hflen
      subst hpre
      have hplen : (f.take n).length = n := by rw [List.length_take]; omega
      have hlenge : m.length ≤ n := by
        have hl := congrArg List.length h
        rw [hplen, List.flatten_cons, List.length_append] at hl
        omega
      have h1 : readU32LE ((f.take n).drop 16) = f.length - HEADER_SIZE := by
        rw [readU32LE_drop16_take f n (by omega), hfdecl]
      have h2 : readU32LE ((f.take n).drop 16) = m.length - HEADER_SIZE := by
        rw [h, List.flatten_cons, List.drop_append_of_le_length (by omega),
            readU32LE_append _ _ (by rw [List.length_drop]; omega), hdecl]
      rw [h1] at h2
      simp only [HEADER_SIZE] at h2
      omega

theorem stream_cut (ms : List (List Nat)) (n : Nat)
    (hpos : ∀ m ∈ ms, 0 < m.length) :
    ∃ ms₁ ms₂ p, ms = ms₁ ++ ms₂ ∧ ms₁.flatten ++ p = ms.flatten.take n ∧
      (p = [] ∨ ∃ f t j, ms₂ = f :: t ∧ j < f.length ∧ p = f.take j) := by
  induction ms generalizing n with
  | nil => exact ⟨[], [], [], rfl, by simp, Or.inl rfl⟩
  | cons m t ih =>
    by_cases hc : m.length ≤ n
    · obtain ⟨ms₁, ms₂, p, he, hcat, hres⟩ :=
        ih (n - m.length) (fun x hx => hpos x (by simp [hx]))
      refine ⟨m :: ms₁, ms₂, p, by simp [he], ?_, hres⟩
      rw [List.flatten_cons, List.flatten_cons, List.take_append_eq_append_take,
          List.take_of_length_le hc, List.append_assoc, hcat]
    · push_neg at hc
      refine ⟨[], m :: t, m.take n, by simp, ?_, Or.inr ⟨m, t, n, rfl, hc, rfl⟩⟩
      rw [List.flatten_cons, List.take_append_of_le_length (by omega)]
      simp

theorem feed_segments_frames (ck : List Nat → List Nat) (pk : List Nat → Bool)
    (segs : List (List Nat)) (ms : List (List Nat)) (p : List Nat)
    (hms : ∀ m ∈ ms, ValidFrame ck pk m) (hp : FrameResidue ck pk p)
    (hbytes : p ++ segs.flatten = ms.flatten) :
    feed_segments ck pk p segs = (ms, []) := by
  induction segs generalizing ms p with
  | nil =>
    rw [List.flatten_nil, List.append_nil] at hbytes
    obtain ⟨hms0, hp0⟩ := residue_join_nil ck pk ms p hms hp hbytes
    subst hms0
    subst hp0
    rfl
  | cons s rest ih =>
    rw [List.flatten_cons] at hbytes
    have hbytes2 : (p ++ s) ++ rest.flatten = ms.flatten := by
      rw [List.append_assoc]
      exact hbytes
    have hpos : ∀ m ∈ ms, 0 < m.length := by
      intro m hm
      have := (hms m hm).2.1
      simp only [HEADER_SIZE] at this
      omega
    obtain ⟨ms₁, ms₂, q, he, hcat, hres⟩ := stream_cut ms (p ++ s).length hpos
    have hps : ms.flatten.take (p ++ s).length = p ++ s := by
      rw [← hbytes2, List.take_left]
    rw [hps] at hcat
    have hms₁ : ∀ m ∈ ms₁, ValidFrame ck pk m := by
      intro x hx
      exact hms x (by rw [he]; exact List.mem_append_left _ hx)
    have hms₂ : ∀ m ∈ ms₂, ValidFrame ck pk m := by
      intro x hx
      exact hms x (by rw [he]; exact List.mem_append_right _ hx)
    have hqres : FrameResidue ck pk q := by
      rcases hres with hq | ⟨f, t, j, hms₂eq, hj, hqeq⟩
      · exact Or.inl hq
      · exact Or.inr ⟨f, j, hms₂ f (by rw [hms₂eq]; simp), hj, hqeq⟩
    have hstep : extract_loop ck pk (p ++ s) = (ms₁, q) := by
      rw [← hcat]
      exact extract_loop_frames ck pk ms₁ q hms₁ hqres
    have hrest : q ++ rest.flatten = ms₂.flatten := by
      have hsplit2 : ms.flatten = ms₁.flatten ++ ms₂.flatten := by
        rw [he, List.flatten_append]
      rw [hsplit2, ← hcat, List.append_assoc] at hbytes2
      exact List.append_cancel_left hbytes2
    have hihres := ih ms₂ q hms₂ hqres hrest
    show ((extract_loop ck pk (p ++ s)).1 ++ (feed_segments ck pk (extract_loop ck pk (p ++ s)).2 rest).1,
          (feed_segments ck pk (extract_loop ck pk (p ++ s)).2 rest).2) = (ms, [])
    rw [hstep]
    simp only [hihres]
    rw [he]

/-! ## Claim C1: framer round-trip -/

/-- C1 (amended): for every finite sequence of valid encoded protocol
messages, concatenated and then split into arbitrary TCP segments
(including splits inside the 24-byte header, inside the payload, and
straddling the 4-byte magic prefix), feeding the segments in order to the
stream framer delivers to the protocol handler exactly the original
message sequence in order; the framer extracts a message only once at
least 24 + declared_length bytes are buffered after the magic, waiting
otherwise - though it reads the 24 header bytes as soon as a magic is
found, even when fewer than 24 bytes are buffered, with no effect on the
delivered sequence.  Holds for every checksum function `ck` and codec
predicate `pk`. -/
theorem framer_round_trip (ck : List Nat → List Nat) (pk : List Nat → Bool)
    (ms segs : List (List Nat)) (hms : ∀ m ∈ ms, ValidFrame ck pk m)
    (hsegs : segs.flatten = ms.flatten) :
    feed_segments ck pk [] segs = (ms, []) :=
  feed_segments_frames ck pk segs ms [] hms (Or.inl rfl) (by simpa using hsegs)

/-- C1 witness: two concrete valid frames split into three segments, with
one split inside frame A's header and one straddling frame C's magic. -/
theorem framer_round_trip_witness :
    feed_segments ckZero pkTrue []
      [frameA.take 10, frameA.drop 10 ++ frameC.take 3, frameC.drop 3] =
      ([frameA, frameC], []) :=
  framer_round_trip ckZero pkTrue [frameA, frameC]
    [frameA.take 10, frameA.drop 10 ++ frameC.take 3, frameC.drop 3]
    (by decide) (by decide)

/-- C1 counterexample to the claim as stated: after receiving the first
10 bytes of a valid frame (a split inside the header), the source's loop
has already invoked `parse_message_header` on the 10 buffered bytes -
`header_parses_below_24` counts one such parse - even though the framer
is in the waiting state (no message extracted, all 10 bytes retained).
The claim says a header is parsed only once at least 24 bytes are
buffered. -/
theorem framer_parses_header_early :
    ValidFrame ckZero pkTrue frameA ∧
    (frameA.take 10).length < HEADER_SIZE ∧
    header_parses_below_24 (frameA.take 10) = 1 ∧
    extract_loop ckZero pkTrue (frameA.take 10) = ([], frameA.take 10) := by
  have hf : find_first_magic (frameA.take 10) (frameA.take 10).length = some 0 := by decide
  refine ⟨by decide, by decide, ?_, ?_⟩
  · unfold header_parses_below_24
    simp only [hf]
    have hc : ¬ (HEADER_SIZE + (parse_message_header ((frameA.take 10).drop 0)).length ≤
        ((frameA.take 10).drop 0).length) := by decide
    rw [dif_neg hc]
    decide
  · have h := extract_loop_wait ckZero pkTrue (frameA.take 10) 0 hf (by decide)
    rwa [List.drop_zero] at h

/-! ## Claim C2: framer overflow -/

/-- C2 (code bug): the source checks neither the declared frame length
nor the buffer capacity.  `oversizeHdr` declares a 65529-byte payload,
larger than capacity - 24; the framer keeps waiting for the frame with no
replacement signal (no such signal exists anywhere in
`extract_message_from_stream_buffer` or `on_incoming_segment`), so after
a first 40000-byte payload segment the buffer legitimately holds 40024
bytes, and appending the next 40000-byte segment makes the memcpy in
`on_incoming_segment` write 80024 bytes into the 65536-byte
`MessageCache.buffer` - past its end. -/
theorem framer_overflow_unchecked :
    STREAM_BUFFER_CAPACITY - HEADER_SIZE < readU32LE (oversizeHdr.drop 16) ∧
    (on_incoming_segment ckZero pkTrue [] oversizeHdr).2 = oversizeHdr ∧
    (on_incoming_segment ckZero pkTrue oversizeHdr segOnes).2 = oversizeHdr ++ segOnes ∧
    STREAM_BUFFER_CAPACITY < ((oversizeHdr ++ segOnes) ++ segOnes).length := by
  have hlenOnes : segOnes.length = 40000 := by
    show (List.replicate 40000 1).length = 40000
    rw [List.length_replicate]
  have hlenHdr : oversizeHdr.length = 24 := by decide
  refine ⟨by decide, ?_, ?_, ?_⟩
  · show (extract_loop ckZero pkTrue ([] ++ oversizeHdr)).2 = oversizeHdr
    rw [List.nil_append,
        extract_loop_wait ckZero pkTrue oversizeHdr 0 (by decide) (by decide),
        List.drop_zero]
  · show (extract_loop ckZero pkTrue (oversizeHdr ++ segOnes)).2 = oversizeHdr ++ segOnes
    have hbig : 4 < (oversizeHdr ++ segOnes).length := by
      rw [List.length_append, hlenHdr, hlenOnes]
      omega
    have hmag : (oversizeHdr ++ segOnes).take 4 = MAGIC := by
      rw [List.take_append_of_le_length (by rw [hlenHdr]; omega)]
      decide
    have hread : readU32LE ((oversizeHdr ++ segOnes).drop 16) = 65529 := by
      rw [List.drop_append_of_le_length (by rw [hlenHdr]; omega),
          readU32LE_append _ _ (by rw [List.length_drop, hlenHdr]; omega)]
      decide
    have hwait : ((oversizeHdr ++ segOnes).drop 0).length <
        HEADER_SIZE + (parse_message_header ((oversizeHdr ++ segOnes).drop 0)).length := by
      rw [List.drop_zero]
      show (oversizeHdr ++ segOnes).length <
        HEADER_SIZE + readU32LE ((oversizeHdr ++ segOnes).drop 16)
      rw [hread, List.length_append, hlenHdr, hlenOnes]
      simp only [HEADER_SIZE]
      omega
    rw [extract_loop_wait ckZero pkTrue (oversizeHdr ++ segOnes) 0
        (find_first_magic_at_zero _ _ hbig hmag) hwait, List.drop_zero]
  · rw [List.length_append, List.length_append, hlenHdr, hlenOnes]
    simp only [STREAM_BUFFER_CAPACITY]
    omega

/-! ## Claim C3: checksum-mismatch recovery -/

/-- C3: if the framer's buffer holds a valid frame A, then a complete
frame B whose checksum does not match its payload, then a valid frame C,
extraction delivers exactly A and C to the protocol handler, discards B
by shifting out its 24 + declared_length bytes, and drains the buffer to
empty.  (The extraction loop contains no close or replace call, so the
connection is untouched.)  Holds for every checksum function `ck`. -/
theorem checksum_mismatch_recovery (ck : List Nat → List Nat) (pk : List Nat → Bool)
    (A B C : List Nat)
    (hA : ValidFrame ck pk A) (hC : ValidFrame ck pk C)
    (hB : CompleteFrame B)
    (hBbad : ck (B.drop HEADER_SIZE) ≠ (B.drop 20).take 4) :
    extract_loop ck pk (A ++ (B ++ C)) = ([A, C], []) := by
  obtain ⟨hAmag, hAlen, hAdecl, hAck, hApk⟩ := hA
  rw [extract_loop_cons ck pk A (B ++ C) ⟨hAmag, hAlen, hAdecl⟩,
      extract_loop_cons ck pk B C hB]
  have hCres : extract_loop ck pk C = ([C], []) := by
    have h := extract_loop_frames ck pk [C] [] (by simpa using hC) (Or.inl rfl)
    simpa using h
  rw [hCres]
  have hd : ck (A.drop HEADER_SIZE) = (A.drop 20).take 4 := hAck.symm
  simp [hd, hApk, hBbad]

/-- C3 witness: concrete frames - a valid A, a complete B whose checksum
field [1,0,0,0] differs from its payload checksum, a valid C. -/
theorem checksum_mismatch_recovery_witness :
    extract_loop ckZero pkTrue (frameA ++ (frameB ++ frameC)) = ([frameA, frameC], []) :=
  checksum_mismatch_recovery ckZero pkTrue frameA frameB frameC
    (by decide) (by decide) (by decide) (by decide)

/-! ## Claim C5: best-candidate selection -/

/-- C5 (code bug evaluation): `pick_best_nonpeer_candidate` initialises
its best cursor to candidate 0 without checking `is_peer`.  With
candidate 0 bound to a slot (scoring 2000.5 thanks to its 1 ms measured
latency) and candidate 1 unbound (scoring 1.5), the function returns
index 0 - a candidate that is currently bound - although an unbound
candidate exists.  The claim says it returns an unbound candidate of
maximal score whenever one exists. -/
theorem pick_best_returns_bound_candidate :
    (pick_best_nonpeer_candidate 0 2000 (fun _ => 0) [boundCand, freeCand]).1 = 0 ∧
    boundCand.isPeer = true ∧ freeCand.isPeer = false := by
  refine ⟨?_, rfl, rfl⟩
  norm_num [pick_best_nonpeer_candidate, pick_go, rate_candidate, boundCand, freeCand,
    List.enum, List.enumFrom]

/-! ## Claim C6: candidate scoring monotonicity -/

/-- C6: for any candidate and any fixed jitter sample, (a) the score with
status disabled is strictly lower than the score with status active, all
other fields equal; and (b) when the latency tolerance is nonnegative
(it is 2000 ms in config.c) and the measured average latency is positive,
halving the average latency yields a score at least as high, all other
fields equal. -/
theorem rate_candidate_monotonicity (now tol rand01 : ℚ) (c : PeerCandidate) :
    (rate_candidate now tol rand01 { c with status := CandidateStatus.disabled } <
       rate_candidate now tol rand01 { c with status := CandidateStatus.active }) ∧
    (0 ≤ tol → 0 < c.averageLatency →
       rate_candidate now tol rand01 c ≤
         rate_candidate now tol rand01 { c with averageLatency := c.averageLatency / 2 }) := by
  constructor
  · unfold rate_candidate
    dsimp only
    rw [if_pos rfl, if_neg (by decide : ¬ (CandidateStatus.active = CandidateStatus.disabled))]
    linarith [le_refl (0 : ℚ)]
  · intro htol hlat
    have hne : c.averageLatency ≠ 0 := ne_of_gt hlat
    have hne2 : c.averageLatency / 2 ≠ 0 := div_ne_zero hne two_ne_zero
    unfold rate_candidate
    dsimp only
    rw [if_pos hne, if_pos hne2]
    have hkey : tol / (c.averageLatency / 2) = 2 * (tol / c.averageLatency) := by
      field_simp
      ring
    have h0 : 0 ≤ tol / c.averageLatency := div_nonneg htol hlat.le
    rw [hkey]
    linarith

/-- C6 witness at a concrete candidate: latency 100 ms, tolerance
2000 ms, jitter sample 1. -/
theorem rate_candidate_monotonicity_witness :
    (rate_candidate 0 2000 1 { candW with status := CandidateStatus.disabled } <
       rate_candidate 0 2000 1 { candW with status := CandidateStatus.active }) ∧
    (rate_candidate 0 2000 1 candW ≤
       rate_candidate 0 2000 1 { candW with averageLatency := candW.averageLatency / 2 }) :=
  ⟨(rate_candidate_monotonicity 0 2000 1 candW).1,
   (rate_candidate_monotonicity 0 2000 1 candW).2 (by norm_num) (by norm_num [candW])⟩

/-! ## Claim C4: data-exchange request discipline -/

/-- C4 (code bug evaluation): on a data-exchange tick with a single
handshaken peer whose `requesting` hash is nonzero (not idle) and no
missing blocks, the source still emits a `getdata` for that peer: the
walk in `exchange_data_with_peers` calls `send_getdata_for_block`
unconditionally for every handshaken peer, with a NULL hash pointer when
no block was assigned (the callee memcpy's 32 bytes from NULL - undefined
behavior).  The claim says a getdata is sent if and only if the peer is
handshaken, idle, and an unassigned hash remains. -/
theorem exchange_sends_getdata_to_busy_peer :
    exchange_data_with_peers 100 [busyPeer] [] = [XAct.getdata 0 none] ∧
    peer_hand_shaken busyPeer = true ∧ is_peer_idle busyPeer = false := by
  refine ⟨by decide, by decide, by decide⟩

/-! ## Claim C8: ping nonce law -/

/-- C8: for every received pong, if its nonce equals the peer's
outstanding ping nonce then exactly one latency sample (now minus
ping_sent) is recorded (consed onto the ring) and pong_received is set to
now, with nonce and ping_sent untouched and nothing emitted; if the nonce
differs, the ping state and the sample list are unchanged and nothing is
emitted. -/
theorem pong_nonce_law (env : Env) (now : ℚ) (fn : Nat) (p : Peer) (n : Nat) :
    (n = p.ping.nonce →
       ((handle_incoming_message env now fn p (Msg.pong n)).1.latencySamples =
          (now - p.ping.pingSent) :: p.latencySamples ∧
        (handle_incoming_message env now fn p (Msg.pong n)).1.ping.pongReceived = now ∧
        (handle_incoming_message env now fn p (Msg.pong n)).1.ping.nonce = p.ping.nonce ∧
        (handle_incoming_message env now fn p (Msg.pong n)).1.ping.pingSent = p.ping.pingSent ∧
        (handle_incoming_message env now fn p (Msg.pong n)).2 = [])) ∧
    (n ≠ p.ping.nonce →
       ((handle_incoming_message env now fn p (Msg.pong n)).1.ping = p.ping ∧
        (handle_incoming_message env now fn p (Msg.pong n)).1.latencySamples = p.latencySamples ∧
        (handle_incoming_message env now fn p (Msg.pong n)).2 = [])) := by
  constructor
  · intro h
    simp only [handle_incoming_message]
    rw [if_pos (by simpa using h)]
    split <;> simp
  · intro h
    simp only [handle_incoming_message]
    rw [if_neg (by simpa using h)]
    simp

/-- C8 witness: the outstanding nonce is 42; a matching pong at t = 12
records the single sample 12 - 5 and stamps pong_received; a pong with
nonce 43 changes nothing. -/
theorem pong_nonce_law_witness :
    ((handle_incoming_message envW 12 7 pongPeer (Msg.pong 42)).1.latencySamples =
       (12 - pongPeer.ping.pingSent) :: pongPeer.latencySamples ∧
     (handle_incoming_message envW 12 7 pongPeer (Msg.pong 42)).1.ping.pongReceived = 12 ∧
     (handle_incoming_message envW 12 7 pongPeer (Msg.pong 42)).1.ping.nonce =
       pongPeer.ping.nonce ∧
     (handle_incoming_message envW 12 7 pongPeer (Msg.pong 42)).1.ping.pingSent =
       pongPeer.ping.pingSent ∧
     (handle_incoming_message envW 12 7 pongPeer (Msg.pong 42)).2 = []) ∧
    ((handle_incoming_message envW 12 7 pongPeer (Msg.pong 43)).1.ping = pongPeer.ping ∧
     (handle_incoming_message envW 12 7 pongPeer (Msg.pong 43)).1.latencySamples =
       pongPeer.latencySamples ∧
     (handle_incoming_message envW 12 7 pongPeer (Msg.pong 43)).2 = []) :=
  ⟨(pong_nonce_law envW 12 7 pongPeer 42).1 rfl,
   (pong_nonce_law envW 12 7 pongPeer 43).2 (by decide)⟩

/-! ## Claim C9: admin KILL command -/

/-- C9 (code bug evaluation): a read that delivers only the two bytes
"KI" (nread = 2 < 4) into a buffer whose residual memory happens to hold
"LL" still stops the event loop: the source's memcmp reads
strlen("KILL") = 4 bytes of the buffer without bounding by nread.  The
claim says a payload shorter than 4 bytes is always ignored. -/
theorem api_kill_ignores_nread :
    api_segment_kills 2 ([75, 73] ++ [76, 76, 0]) = true ∧ 2 < 4 :=
  ⟨by decide, by decide⟩

/-! ## Claim C10: version fields updated below minimum -/

/-- C10: on receipt of a version message whose payload version is below
the minimum peer version, the handler still updates the peer's
chain_height (uint32 cast of start_height) and the bound candidate's
service bitmask, while the acceptance flag acceptThem keeps its previous
value. -/
theorem version_updates_below_minimum (env : Env) (now : ℚ) (fn : Nat) (p : Peer)
    (v hgt : Int) (s : Nat) (hv : v < env.minimalPeerVersion) :
    (handle_incoming_message env now fn p (Msg.version v hgt s)).1.chain_height =
      u32ofInt hgt ∧
    (handle_incoming_message env now fn p (Msg.version v hgt s)).1.candidacy.services = s ∧
    (handle_incoming_message env now fn p (Msg.version v hgt s)).1.acceptThem =
      p.acceptThem := by
  simp only [handle_incoming_message]
  rw [if_neg (by omega : ¬ (v ≥ env.minimalPeerVersion))]
  split
  · unfold on_handshake_success ping_peer
    split
    · simp
    · split <;> split <;> simp
  · simp

/-- C10 witness: version 100 < 70015 still records chain height 600000
and services 1, leaving acceptThem false. -/
theorem version_updates_below_minimum_witness :
    (handle_incoming_message envW 0 1 freshPeer (Msg.version 100 600000 1)).1.chain_height =
      u32ofInt 600000 ∧
    (handle_incoming_message envW 0 1 freshPeer (Msg.version 100 600000 1)).1.candidacy.services
      = 1 ∧
    (handle_incoming_message envW 0 1 freshPeer (Msg.version 100 600000 1)).1.acceptThem =
      freshPeer.acceptThem :=
  version_updates_below_minimum envW 0 1 freshPeer 100 600000 1 (by decide)

/-! ## Per-step facts about the protocol handler (towards claim C7) -/

theorem success_acceptThem (env : Env) (now : ℚ) (fn : Nat) (p : Peer) :
    (on_handshake_success env now fn p).1.acceptThem = p.acceptThem := by
  unfold on_handshake_success ping_peer
  split
  · rfl
  · split <;> split <;> rfl

theorem success_acceptUs (env : Env) (now : ℚ) (fn : Nat) (p : Peer) :
    (on_handshake_success env now fn p).1.acceptUs = p.acceptUs := by
  unfold on_handshake_success ping_peer
  split
  · rfl
  · split <;> split <;> rfl

theorem success_mem_actions (env : Env) (now : ℚ) (fn : Nat) (p : Peer) :
    Action.handshakeSuccess ∈ (on_handshake_success env now fn p).2 := by
  unfold on_handshake_success ping_peer
  split
  · simp
  · simp

theorem success_count_actions (env : Env) (now : ℚ) (fn : Nat) (p : Peer) :
    (on_handshake_success env now fn p).2.count Action.handshakeSuccess = 1 := by
  unfold on_handshake_success ping_peer
  split
  · simp
  · split <;> simp

theorem handle_acceptThem (env : Env) (now : ℚ) (fn : Nat) (p : Peer) (m : Msg) :
    (handle_incoming_message env now fn p m).1.acceptThem =
      (p.acceptThem || acceptedVersion env m) := by
  cases m with
  | version v hgt s =>
    simp only [handle_incoming_message, acceptedVersion]
    by_cases hv : v ≥ env.minimalPeerVersion
    · rw [if_pos hv]
      split
      · rw [success_acceptThem]
        simp [hv]
      · simp [hv]
    · rw [if_neg hv]
      split
      · rw [success_acceptThem]
        simp [hv]
      · simp [hv]
  | verack =>
    simp only [handle_incoming_message, acceptedVersion]
    split
    · rw [success_acceptThem]
      simp
    · simp
  | ping n => simp [handle_incoming_message, acceptedVersion]
  | pong n =>
    simp only [handle_incoming_message, acceptedVersion]
    split
    · split <;> simp
    · simp
  | block => simp [handle_incoming_message, acceptedVersion]
  | other => simp [handle_incoming_message, acceptedVersion]

theorem handle_acceptUs (env : Env) (now : ℚ) (fn : Nat) (p : Peer) (m : Msg) :
    (handle_incoming_message env now fn p m).1.acceptUs =
      (p.acceptUs || isVerack m) := by
  cases m with
  | version v hgt s =>
    simp only [handle_incoming_message, isVerack]
    by_cases hv : v ≥ env.minimalPeerVersion
    · rw [if_pos hv]
      split
      · rw [success_acceptUs]
        simp
      · simp
    · rw [if_neg hv]
      split
      · rw [success_acceptUs]
        simp
      · simp
  | verack =>
    simp only [handle_incoming_message, isVerack]
    split
    · rw [success_acceptUs]
      simp
    · simp
  | ping n => simp [handle_incoming_message, isVerack]
  | pong n =>
    simp only [handle_incoming_message, isVerack]
    split
    · split <;> simp
    · simp
  | block => simp [handle_incoming_message, isVerack]
  | other => simp [handle_incoming_message, isVerack]

theorem handle_success_mem (env : Env) (now : ℚ) (fn : Nat) (p : Peer) (m : Msg) :
    (Action.handshakeSuccess ∈ (handle_incoming_message env now fn p m).2) ↔
      ((isVersionMsg m || isVerack m) = true ∧
       ((p.acceptThem || acceptedVersion env m) && (p.acceptUs || isVerack m)) = true) := by
  cases m with
  | version v hgt s =>
    simp only [handle_incoming_message, acceptedVersion, isVersionMsg, isVerack, peer_hand_shaken]
    by_cases hv : v ≥ env.minimalPeerVersion
    · rw [if_pos hv]
      split
      · rename_i hsh
        simp only [Bool.true_or, true_and]
        constructor
        · intro _
          simpa [hv] using hsh
        · intro _
          exact success_mem_actions env now fn _
      · rename_i hsh
        simp only [List.not_mem_nil, false_iff, Bool.true_or, true_and]
        intro hcontra
        exact hsh (by simpa [hv] using hcontra)
    · rw [if_neg hv]
      split
      · rename_i hsh
        simp only [Bool.true_or, true_and]
        constructor
        · intro _
          simpa [hv] using hsh
        · intro _
          exact success_mem_actions env now fn _
      · rename_i hsh
        simp only [List.not_mem_nil, false_iff, Bool.true_or, true_and]
        intro hcontra
        exact hsh (by simpa [hv] using hcontra)
  | verack =>
    simp only [handle_incoming_message, isVersionMsg, isVerack, peer_hand_shaken]
    by_cases hthem : p.acceptThem = true
    · rw [if_pos (by simp [hthem])]
      constructor
      · intro _
        simp [hthem]
      · intro _
        exact List.mem_cons_of_mem _ (success_mem_actions env now fn _)
    · have hthem2 : p.acceptThem = false := by
        cases hb : p.acceptThem
        · rfl
        · exact absurd hb hthem
      rw [if_neg (by simp [hthem2])]
      simp [hthem2, acceptedVersion]
  | ping n => simp [handle_incoming_message, isVersionMsg, isVerack]
  | pong n =>
    simp only [handle_incoming_message, isVersionMsg, isVerack]
    split
    · split <;> simp
    · simp
  | block => simp [handle_incoming_message, isVersionMsg, isVerack]
  | other => simp [handle_incoming_message, isVersionMsg, isVerack]

theorem handle_actions_shape (env : Env) (now : ℚ) (fn : Nat) (p : Peer) (m : Msg) :
    Action.handshakeSuccess ∈ (handle_incoming_message env now fn p m).2 ∨
    (handle_incoming_message env now fn p m).2 = [] ∨
    (handle_incoming_message env now fn p m).2 = [Action.sendVerack] ∨
    (∃ n, (handle_incoming_message env now fn p m).2 = [Action.sendPong n]) := by
  cases m with
  | version v hgt s =>
    simp only [handle_incoming_message]
    split_ifs with h1 h2 h3
    · exact Or.inl (success_mem_actions env now fn _)
    · simp
    · exact Or.inl (success_mem_actions env now fn _)
    · simp
  | verack =>
    simp only [handle_incoming_message]
    split
    · exact Or.inl (List.mem_cons_of_mem _ (success_mem_actions env now fn _))
    · simp
  | ping n =>
    exact Or.inr (Or.inr (Or.inr ⟨n, rfl⟩))
  | pong n =>
    simp only [handle_incoming_message]
    split_ifs <;> simp
  | block => simp [handle_incoming_message]
  | other => simp [handle_incoming_message]

theorem handle_success_count (env : Env) (now : ℚ) (fn : Nat) (p : Peer) (m : Msg) :
    (handle_incoming_message env now fn p m).2.count Action.handshakeSuccess =
      (if Action.handshakeSuccess ∈ (handle_incoming_message env now fn p m).2
       then 1 else 0) := by
  cases m with
  | version v hgt s =>
    simp only [handle_incoming_message]
    by_cases hv : v ≥ env.minimalPeerVersion
    · rw [if_pos hv]
      split
      · rw [if_pos (success_mem_actions env now fn _), success_count_actions]
      · simp
    · rw [if_neg hv]
      split
      · rw [if_pos (success_mem_actions env now fn _), success_count_actions]
      · simp
  | verack =>
    simp only [handle_incoming_message]
    split
    · rw [if_pos (List.mem_cons_of_mem _ (success_mem_actions env now fn _)),
          List.count_cons_of_ne (by decide), success_count_actions]
    · simp
  | ping n => simp [handle_incoming_message]
  | pong n =>
    simp only [handle_incoming_message]
    split_ifs <;> simp_all
  | block => simp [handle_incoming_message]
  | other => simp [handle_incoming_message]

/-! ## Trace lemmas for message runs -/

theorem run_messages_length (env : Env) (p : Peer) (inps : List Inp) :
    (run_messages env p inps).1.length = inps.length := by
  induction inps generalizing p with
  | nil => rfl
  | cons a rest ih => simp [run_messages, ih]

theorem getD_nil_of_le (l : List (List Action)) (i : Nat) (h : l.length ≤ i) :
    l.getD i [] = [] := by
  induction l generalizing i with
  | nil => cases i <;> rfl
  | cons a t ih =>
    cases i with
    | zero => simp at h
    | succ j =>
      simp only [List.getD_cons_succ]
      exact ih j (by simpa using h)

theorem run_success_iff (env : Env) (p : Peer) (inps : List Inp) (i : Nat)
    (hi : i < inps.length) :
    (Action.handshakeSuccess ∈ ((run_messages env p inps).1.getD i []) ↔
      ((isVersionMsg (inps.getD i defaultInp).msg ||
        isVerack (inps.getD i defaultInp).msg) = true ∧
       ((p.acceptThem || ((inps.take (i + 1)).map Inp.msg).any (acceptedVersion env)) &&
        (p.acceptUs || ((inps.take (i + 1)).map Inp.msg).any isVerack)) = true)) := by
  induction inps generalizing p i with
  | nil => simp at hi
  | cons a rest ih =>
    cases i with
    | zero =>
      simp only [run_messages, List.getD_cons_zero, List.take_succ_cons, List.take_zero,
        List.map_cons, List.map_nil, List.any_cons, List.any_nil, Bool.or_false]
      exact handle_success_mem env a.now a.freshNonce p a.msg
    | succ j =>
      have hj : j < rest.length := by simpa using hi
      simp only [run_messages, List.getD_cons_succ, List.take_succ_cons, List.map_cons,
        List.any_cons]
      rw [ih _ j hj, handle_acceptThem, handle_acceptUs]
      simp [Bool.or_assoc]

theorem run_no_ping_getaddr (env : Env) (p : Peer) (inps : List Inp) (i : Nat)
    (hns : Action.handshakeSuccess ∉ ((run_messages env p inps).1.getD i [])) :
    Action.sendGetaddr ∉ ((run_messages env p inps).1.getD i []) ∧
    (∀ n, Action.sendPing n ∉ ((run_messages env p inps).1.getD i [])) := by
  induction inps generalizing p i with
  | nil =>
    simp [run_messages]
  | cons a rest ih =>
    cases i with
    | zero =>
      simp only [run_messages, List.getD_cons_zero] at hns ⊢
      rcases handle_actions_shape env a.now a.freshNonce p a.msg with h | h | h | ⟨n, h⟩
      · exact absurd h hns
      · rw [h]; simp
      · rw [h]; simp
      · rw [h]; simp
    | succ j =>
      simp only [run_messages, List.getD_cons_succ] at hns ⊢
      exact ih _ j hns

theorem acceptedVersion_imp_isVersion (env : Env) (m : Msg)
    (h : acceptedVersion env m = true) : isVersionMsg m = true := by
  cases m <;> simp_all [acceptedVersion, isVersionMsg]

theorem any_acceptedVersion_false (env : Env) (l : List Msg)
    (h : l.countP isVersionMsg = 0) : l.any (acceptedVersion env) = false := by
  rw [List.any_eq_false]
  intro m hm hacc
  exact (List.countP_eq_zero.mp h m hm) (acceptedVersion_imp_isVersion env m hacc)

theorem any_isVerack_false (l : List Msg) (h : l.countP isVerack = 0) :
    l.any isVerack = false := by
  rw [List.any_eq_false]
  intro m hm hacc
  exact (List.countP_eq_zero.mp h m hm) hacc

theorem success_sum_bool (them us A V K aR kR : Bool)
    (hAV : A = true → V = true)
    (hV : V = true → them = false ∧ aR = false)
    (hK : K = true → us = false ∧ kR = false) :
    ((if ((V || K) = true ∧ ((them || A) && (us || K)) = true) then (1 : Nat) else 0) +
      (if ((them || A) && (us || K)) = true then 0
       else if (((them || A) || aR) && ((us || K) || kR)) = true then 1 else 0)) =
      (if (them && us) = true then 0
       else if ((them || (A || aR)) && (us || (K || kR))) = true then 1 else 0) := by
  revert hAV hV hK
  cases them <;> cases us <;> cases A <;> cases V <;> cases K <;> cases aR <;> cases kR <;>
    decide

theorem run_success_total (env : Env) (inps : List Inp) (p : Peer)
    (hthem : p.acceptThem = true → (inps.map Inp.msg).countP isVersionMsg = 0)
    (hus : p.acceptUs = true → (inps.map Inp.msg).countP isVerack = 0)
    (hv1 : (inps.map Inp.msg).countP isVersionMsg ≤ 1)
    (hk1 : (inps.map Inp.msg).countP isVerack ≤ 1) :
    ((run_messages env p inps).1.map (fun acts => acts.count Action.handshakeSuccess)).sum =
      (if (p.acceptThem && p.acceptUs) = true then 0
       else if ((p.acceptThem || (inps.map Inp.msg).any (acceptedVersion env)) &&
                (p.acceptUs || (inps.map Inp.msg).any isVerack)) = true then 1 else 0) := by
  induction inps generalizing p with
  | nil =>
    cases hA : p.acceptThem <;> cases hU : p.acceptUs <;> simp [run_messages, hA, hU]
  | cons a rest ih =>
    have hcv : ((a :: rest).map Inp.msg).countP isVersionMsg =
        (rest.map Inp.msg).countP isVersionMsg + (if isVersionMsg a.msg then 1 else 0) := by
      simp [List.countP_cons]
    have hck : ((a :: rest).map Inp.msg).countP isVerack =
        (rest.map Inp.msg).countP isVerack + (if isVerack a.msg then 1 else 0) := by
      simp [List.countP_cons]
    have hvrest : (rest.map Inp.msg).countP isVersionMsg ≤ 1 := by
      rw [hcv] at hv1
      omega
    have hkrest : (rest.map Inp.msg).countP isVerack ≤ 1 := by
      rw [hck] at hk1
      omega
    have hV : isVersionMsg a.msg = true → p.acceptThem = false ∧
        (rest.map Inp.msg).any (acceptedVersion env) = false := by
      intro hv
      have hzero : (rest.map Inp.msg).countP isVersionMsg = 0 := by
        rw [hcv, if_pos hv] at hv1
        omega
      refine ⟨?_, any_acceptedVersion_false env _ hzero⟩
      cases hA : p.acceptThem
      · rfl
      · exfalso
        have hc := hthem hA
        rw [hcv, if_pos hv] at hc
        omega
    have hK : isVerack a.msg = true → p.acceptUs = false ∧
        (rest.map Inp.msg).any isVerack = false := by
      intro hv
      have hzero : (rest.map Inp.msg).countP isVerack = 0 := by
        rw [hck, if_pos hv] at hk1
        omega
      refine ⟨?_, any_isVerack_false _ hzero⟩
      cases hA : p.acceptUs
      · rfl
      · exfalso
        have hc := hus hA
        rw [hck, if_pos hv] at hc
        omega
    have hthem1 : (handle_incoming_message env a.now a.freshNonce p a.msg).1.acceptThem = true →
        (rest.map Inp.msg).countP isVersionMsg = 0 := by
      rw [handle_acceptThem]
      intro hor
      rcases Bool.or_eq_true_iff.mp hor with hA | hA
      · have hc := hthem hA
        rw [hcv] at hc
        omega
      · have hv := acceptedVersion_imp_isVersion env a.msg hA
        rw [hcv, if_pos hv] at hv1
        omega
    have hus1 : (handle_incoming_message env a.now a.freshNonce p a.msg).1.acceptUs = true →
        (rest.map Inp.msg).countP isVerack = 0 := by
      rw [handle_acceptUs]
      intro hor
      rcases Bool.or_eq_true_iff.mp hor with hA | hA
      · have hc := hus hA
        rw [hck] at hc
        omega
      · rw [hck, if_pos hA] at hk1
        omega
    have hstep :
        ((run_messages env p (a :: rest)).1.map
            (fun acts => acts.count Action.handshakeSuccess)).sum =
          (handle_incoming_message env a.now a.freshNonce p a.msg).2.count
              Action.handshakeSuccess +
            ((run_messages env (handle_incoming_message env a.now a.freshNonce p a.msg).1
                  rest).1.map (fun acts => acts.count Action.handshakeSuccess)).sum := by
      simp [run_messages]
    rw [hstep, handle_success_count,
        ih (handle_incoming_message env a.now a.freshNonce p a.msg).1 hthem1 hus1 hvrest hkrest]
    simp only [handle_success_mem, handle_acceptThem, handle_acceptUs, List.map_cons,
      List.any_cons]
    exact success_sum_bool p.acceptThem p.acceptUs (acceptedVersion env a.msg)
      (isVersionMsg a.msg) (isVerack a.msg) ((rest.map Inp.msg).any (acceptedVersion env))
      ((rest.map Inp.msg).any isVerack) (acceptedVersion_imp_isVersion env a.msg) hV hK

theorem any_take_succ (l : List Msg) (f : Msg → Bool) (i : Nat) (hi : i < l.length) :
    (l.take (i + 1)).any f = ((l.take i).any f || f (l.getD i Msg.other)) := by
  induction l generalizing i with
  | nil => simp at hi
  | cons x t ih =>
    cases i with
    | zero => simp
    | succ j =>
      simp only [List.take_succ_cons, List.any_cons, List.getD_cons_succ]
      rw [ih j (by simpa using hi)]
      simp [Bool.or_assoc]

theorem getD_map_msg (l : List Inp) (i : Nat) (hi : i < l.length) :
    (l.map Inp.msg).getD i Msg.other = (l.getD i defaultInp).msg := by
  induction l generalizing i with
  | nil => simp at hi
  | cons x t ih =>
    cases i with
    | zero => rfl
    | succ j =>
      simp only [List.map_cons, List.getD_cons_succ]
      exact ih j (by simpa using hi)

/-! ## Claim C7: handshake completion -/

/-- C7 (amended): for a fresh peer (both handshake flags clear) and every
sequence of received messages: (1) at every step at which the prefix
processed so far does not yet contain both an accepted version and a
verack, the handler neither runs the handshake-success action nor sends a
ping or a getaddr; (2) at the first step at which both have been
observed, the handshake-success action runs; (3) when the sequence
contains at most one version message and at most one verack - as in a
conforming handshake - the action runs exactly once in total (once when
completion occurs, never otherwise).  Without that restriction the source
re-runs the action on every later version or verack message, see the
counterexample. -/
theorem handshake_success_law (env : Env) (p0 : Peer) (inps : List Inp)
    (hthem0 : p0.acceptThem = false) (hus0 : p0.acceptUs = false) :
    (∀ i, handshakeCompleted env ((inps.take (i + 1)).map Inp.msg) = false →
       Action.handshakeSuccess ∉ ((run_messages env p0 inps).1.getD i []) ∧
       Action.sendGetaddr ∉ ((run_messages env p0 inps).1.getD i []) ∧
       (∀ n, Action.sendPing n ∉ ((run_messages env p0 inps).1.getD i []))) ∧
    (∀ i, i < inps.length →
       handshakeCompleted env ((inps.take (i + 1)).map Inp.msg) = true →
       handshakeCompleted env ((inps.take i).map Inp.msg) = false →
       Action.handshakeSuccess ∈ ((run_messages env p0 inps).1.getD i [])) ∧
    ((inps.map Inp.msg).countP isVersionMsg ≤ 1 →
     (inps.map Inp.msg).countP isVerack ≤ 1 →
     ((run_messages env p0 inps).1.map
         (fun acts => acts.count Action.handshakeSuccess)).sum =
       (if handshakeCompleted env (inps.map Inp.msg) = true then 1 else 0)) := by
  refine ⟨?_, ?_, ?_⟩
  · intro i hc
    by_cases hi : i < inps.length
    · have hiff := run_success_iff env p0 inps i hi
      have hnm : Action.handshakeSuccess ∉ ((run_messages env p0 inps).1.getD i []) := by
        intro hmem
        have hcond := (hiff.mp hmem).2
        rw [hthem0, hus0] at hcond
        simp only [Bool.false_or] at hcond
        simp only [handshakeCompleted] at hc
        exact Bool.noConfusion (hcond.symm.trans hc)
      exact ⟨hnm, (run_no_ping_getaddr env p0 inps i hnm).1,
        (run_no_ping_getaddr env p0 inps i hnm).2⟩
    · push_neg at hi
      have hnil : ((run_messages env p0 inps).1.getD i []) = [] :=
        getD_nil_of_le _ i (by rw [run_messages_length]; omega)
      rw [hnil]
      simp
  · intro i hi hc1 hc0
    rw [run_success_iff env p0 inps i hi, hthem0, hus0]
    simp only [Bool.false_or]
    refine ⟨?_, by simpa [handshakeCompleted] using hc1⟩
    cases hV : isVersionMsg (inps.getD i defaultInp).msg
    · cases hK : isVerack (inps.getD i defaultInp).msg
      · exfalso
        have hiL : i < (inps.map Inp.msg).length := by
          rw [List.length_map]
          exact hi
        have hacc : acceptedVersion env (inps.getD i defaultInp).msg = false := by
          cases hA : acceptedVersion env (inps.getD i defaultInp).msg
          · rfl
          · rw [acceptedVersion_imp_isVersion env _ hA] at hV
            exact Bool.noConfusion hV
        have e1 := any_take_succ (inps.map Inp.msg) (acceptedVersion env) i hiL
        have e2 := any_take_succ (inps.map Inp.msg) isVerack i hiL
        rw [getD_map_msg inps i hi] at e1 e2
        rw [hacc, Bool.or_false] at e1
        rw [hK, Bool.or_false] at e2
        simp only [handshakeCompleted, List.map_take] at hc1 hc0
        rw [e1, e2] at hc1
        exact Bool.noConfusion (hc1.symm.trans hc0)
      · simp [hK]
    · simp [hV]
  · intro hv1 hk1
    have h := run_success_total env inps p0
      (fun hA => absurd (hthem0.symm.trans hA) (by decide))
      (fun hA => absurd (hus0.symm.trans hA) (by decide)) hv1 hk1
    rw [h, hthem0, hus0]
    simp [handshakeCompleted]

/-- C7 witness: a clean handshake (version 70015 then verack) from a
fresh peer in the witness environment. -/
theorem handshake_success_law_witness :
    (∀ i, handshakeCompleted envW ((okInps.take (i + 1)).map Inp.msg) = false →
       Action.handshakeSuccess ∉ ((run_messages envW freshPeer okInps).1.getD i []) ∧
       Action.sendGetaddr ∉ ((run_messages envW freshPeer okInps).1.getD i []) ∧
       (∀ n, Action.sendPing n ∉ ((run_messages envW freshPeer okInps).1.getD i []))) ∧
    (∀ i, i < okInps.length →
       handshakeCompleted envW ((okInps.take (i + 1)).map Inp.msg) = true →
       handshakeCompleted envW ((okInps.take i).map Inp.msg) = false →
       Action.handshakeSuccess ∈ ((run_messages envW freshPeer okInps).1.getD i [])) ∧
    ((okInps.map Inp.msg).countP isVersionMsg ≤ 1 →
     (okInps.map Inp.msg).countP isVerack ≤ 1 →
     ((run_messages envW freshPeer okInps).1.map
         (fun acts => acts.count Action.handshakeSuccess)).sum =
       (if handshakeCompleted envW (okInps.map Inp.msg) = true then 1 else 0)) :=
  handshake_success_law envW freshPeer okInps rfl rfl

/-- C7 counterexample to the claim as stated: a duplicate verack after a
completed handshake makes `on_handshake_success` run a second time - the
trace of [version 70015, verack, verack] contains the success action
twice, not exactly once. -/
theorem handshake_success_twice :
    ((run_messages envW freshPeer dupInps).1.map
        (fun acts => acts.count Action.handshakeSuccess)).sum = 2 := by
  norm_num [run_messages, handle_incoming_message, on_handshake_success, ping_peer,
    peer_hand_shaken, envW, freshPeer, dupInps, is_latency_fully_tested, List.count_cons,
    List.count_nil]
  decide

end CTBC
